import Mathlib

/-!
Verification of the blu-store `Store` class, an insertion-ordered
key-value container extending the JS `Map` with array-like helpers
(src/index.d.ts and the implementation file).

A `Store` is embedded as a list of key-value pairs whose keys are
unique, which is exactly the invariant JS `Map` maintains; iteration
order is the list order (= insertion order).  `undefined`-returning
operations return `Option`; throwing operations return `Except`.
A separate small heap model (stores addressed by references) captures
the aliasing facts: `clone` yields an independent object and the
derive methods never write through `this`.
-/

namespace BluStore

/-- JS `Map.prototype.set`: when the key is present the value is
updated in place (position kept), otherwise the pair is appended. -/
def setPair {K V : Type} [DecidableEq K] (l : List (K × V)) (k : K) (v : V) :
    List (K × V) :=
  if l.any (fun p => decide (p.1 = k)) then
    l.map (fun p => if p.1 = k then (k, v) else p)
  else l ++ [(k, v)]

/-- JS `Map.prototype.delete`: removes the pair with the given key. -/
def deletePair {K V : Type} [DecidableEq K] (l : List (K × V)) (k : K) :
    List (K × V) :=
  l.filter (fun p => decide (p.1 ≠ k))

theorem setPair_keys_of_mem {K V : Type} [DecidableEq K]
    {l : List (K × V)} {k : K} (v : V) (h : k ∈ l.map Prod.fst) :
    (setPair l k v).map Prod.fst = l.map Prod.fst := by
  have hany : l.any (fun p => decide (p.1 = k)) = true := by
    simp only [List.any_eq_true, decide_eq_true_eq]
    rcases List.mem_map.1 h with ⟨p, hp, hpk⟩
    exact ⟨p, hp, hpk⟩
  simp only [setPair, hany, if_true, List.map_map]
  apply List.map_congr_left
  intro p _
  by_cases hpk : p.1 = k
  · simp [hpk]
  · simp [hpk]

theorem setPair_keys_of_not_mem {K V : Type} [DecidableEq K]
    {l : List (K × V)} {k : K} (v : V) (h : k ∉ l.map Prod.fst) :
    (setPair l k v).map Prod.fst = l.map Prod.fst ++ [k] := by
  have hany : l.any (fun p => decide (p.1 = k)) = false := by
    simp only [List.any_eq_false, decide_eq_true_eq]
    intro p hp hpk
    exact h (List.mem_map.2 ⟨p, hp, hpk⟩)
  simp [setPair, hany]

theorem setPair_nodup {K V : Type} [DecidableEq K]
    {l : List (K × V)} (k : K) (v : V) (h : (l.map Prod.fst).Nodup) :
    ((setPair l k v).map Prod.fst).Nodup := by
  by_cases hk : k ∈ l.map Prod.fst
  · rw [setPair_keys_of_mem v hk]; exact h
  · rw [setPair_keys_of_not_mem v hk]
    exact h.append (List.nodup_singleton k) (by simpa using hk)

theorem deletePair_nodup {K V : Type} [DecidableEq K]
    {l : List (K × V)} (k : K) (h : (l.map Prod.fst).Nodup) :
    ((deletePair l k).map Prod.fst).Nodup :=
  (((List.filter_sublist l).map Prod.fst).nodup h)

/-- A pair of the updated list with a key other than the written one
was already a pair of the original list. -/
theorem mem_setPair_of_ne {K V : Type} [DecidableEq K]
    {l : List (K × V)} {k : K} {v : V} {p : K × V}
    (hp : p ∈ setPair l k v) (hne : p.1 ≠ k) : p ∈ l := by
  unfold setPair at hp
  by_cases hany : l.any (fun q => decide (q.1 = k)) = true
  · rw [if_pos hany] at hp
    rcases List.mem_map.1 hp with ⟨q, hq, hqp⟩
    by_cases hqk : q.1 = k
    · rw [if_pos hqk] at hqp
      exact absurd (by rw [← hqp]) hne
    · rw [if_neg hqk] at hqp
      exact hqp ▸ hq
  · rw [if_neg hany] at hp
    rcases List.mem_append.1 hp with h | h
    · exact h
    · exact absurd (by simpa using congrArg Prod.fst (List.mem_singleton.1 h)) hne

/-- The `Store` class: an insertion-ordered map.  `entries` is the
sequence of key-value pairs in insertion order; keys are unique,
as the underlying JS `Map` guarantees. -/
@[ext]
structure Store (K V : Type) where
  entries : List (K × V)
  nodup : (entries.map Prod.fst).Nodup

namespace Store

variable {K V : Type}

/-- `store.size` of the underlying `Map`. -/
def size (c : Store K V) : Nat := c.entries.length

/-- `Store.prototype.array`: `[...this.values()]`. -/
def array (c : Store K V) : List V := c.entries.map Prod.snd

/-- `Store.prototype.keyArray`: `[...this.keys()]`. -/
def keyArray (c : Store K V) : List K := c.entries.map Prod.fst

/-- `Map.prototype.get`: the value stored under `k`, or `undefined`. -/
def get [DecidableEq K] (c : Store K V) (k : K) : Option V :=
  (c.entries.find? (fun p => decide (p.1 = k))).map Prod.snd

/-- `Map.prototype.set` lifted to `Store`. -/
def set [DecidableEq K] (c : Store K V) (k : K) (v : V) : Store K V :=
  ⟨setPair c.entries k v, setPair_nodup k v c.nodup⟩

/-- `Map.prototype.delete` lifted to `Store` (the removing part;
the returned boolean is irrelevant to the claims). -/
def delete [DecidableEq K] (c : Store K V) (k : K) : Store K V :=
  ⟨deletePair c.entries k, deletePair_nodup k c.nodup⟩

/-- `Store.prototype.clone`: `new Store(this)` copies the pair
sequence as is. -/
def clone (c : Store K V) : Store K V := ⟨c.entries, c.nodup⟩

theorem clone_eq (c : Store K V) : c.clone = c := rfl

/-- `Store.prototype.concat`: clones the receiver, then for each
argument store destructures ONLY its first entry (`[[key, value]]`)
and sets it; an empty argument store makes the destructuring throw
(`none`). -/
def concat [DecidableEq K] (c : Store K V) (stores : List (Store K V)) :
    Option (Store K V) :=
  stores.foldlM
    (fun store s =>
      match s.entries.head? with
      | some kv => some (store.set kv.1 kv.2)
      | none => none)
    c.clone

end Store

/-- The loop of `Store.prototype.filter`: iterate the pairs with a
running index, keep those on which the callback is truthy.  Building
the result with `filtered.set` is appending here because the source
keys are unique, so each kept key is fresh in the result. -/
def filterLoop {K V : Type} (p : V → K → Nat → Store K V → Bool)
    (s : Store K V) : List (K × V) → Nat → List (K × V)
  | [], _ => []
  | kv :: rest, i =>
    if p kv.2 kv.1 i s then kv :: filterLoop p s rest (i + 1)
    else filterLoop p s rest (i + 1)

/-- The loop of `Store.prototype.split`: truthy pairs go to the first
store, the rest to the second, in order. -/
def splitLoop {K V : Type} (p : V → K → Nat → Store K V → Bool)
    (s : Store K V) : List (K × V) → Nat → List (K × V) × List (K × V)
  | [], _ => ([], [])
  | kv :: rest, i =>
    if p kv.2 kv.1 i s then
      (kv :: (splitLoop p s rest (i + 1)).1, (splitLoop p s rest (i + 1)).2)
    else
      ((splitLoop p s rest (i + 1)).1, kv :: (splitLoop p s rest (i + 1)).2)

/-- The loop of `Store.prototype.map`: push `callback(value, key,
index, this)` for every pair. -/
def mapLoop {K V T : Type} (f : V → K → Nat → Store K V → T)
    (s : Store K V) : List (K × V) → Nat → List T
  | [], _ => []
  | kv :: rest, i => f kv.2 kv.1 i s :: mapLoop f s rest (i + 1)

theorem filterLoop_sublist {K V : Type} (p : V → K → Nat → Store K V → Bool)
    (s : Store K V) :
    ∀ (l : List (K × V)) (i : Nat), List.Sublist (filterLoop p s l i) l
  | [], _ => List.Sublist.refl []
  | kv :: rest, i => by
    unfold filterLoop
    by_cases h : p kv.2 kv.1 i s = true
    · rw [if_pos h]
      exact (filterLoop_sublist p s rest (i + 1)).cons₂ kv
    · rw [if_neg h]
      exact (filterLoop_sublist p s rest (i + 1)).cons kv

theorem splitLoop_fst_sublist {K V : Type} (p : V → K → Nat → Store K V → Bool)
    (s : Store K V) :
    ∀ (l : List (K × V)) (i : Nat), List.Sublist (splitLoop p s l i).1 l
  | [], _ => List.Sublist.refl []
  | kv :: rest, i => by
    unfold splitLoop
    by_cases h : p kv.2 kv.1 i s = true
    · rw [if_pos h]
      exact (splitLoop_fst_sublist p s rest (i + 1)).cons₂ kv
    · rw [if_neg h]
      exact (splitLoop_fst_sublist p s rest (i + 1)).cons kv

theorem splitLoop_snd_sublist {K V : Type} (p : V → K → Nat → Store K V → Bool)
    (s : Store K V) :
    ∀ (l : List (K × V)) (i : Nat), List.Sublist (splitLoop p s l i).2 l
  | [], _ => List.Sublist.refl []
  | kv :: rest, i => by
    unfold splitLoop
    by_cases h : p kv.2 kv.1 i s = true
    · rw [if_pos h]
      exact (splitLoop_snd_sublist p s rest (i + 1)).cons kv
    · rw [if_neg h]
      exact (splitLoop_snd_sublist p s rest (i + 1)).cons₂ kv

/-- The two split loops agree: the first component of `splitLoop` is
exactly `filterLoop`. -/
theorem splitLoop_fst_eq_filterLoop {K V : Type}
    (p : V → K → Nat → Store K V → Bool) (s : Store K V) :
    ∀ (l : List (K × V)) (i : Nat), (splitLoop p s l i).1 = filterLoop p s l i
  | [], _ => rfl
  | kv :: rest, i => by
    unfold splitLoop filterLoop
    by_cases h : p kv.2 kv.1 i s = true
    · rw [if_pos h, if_pos h]
      exact congrArg (kv :: ·) (splitLoop_fst_eq_filterLoop p s rest (i + 1))
    · rw [if_neg h, if_neg h]
      exact splitLoop_fst_eq_filterLoop p s rest (i + 1)

/-- Every pair goes to exactly one side of the split. -/
theorem splitLoop_length {K V : Type}
    (p : V → K → Nat → Store K V → Bool) (s : Store K V) :
    ∀ (l : List (K × V)) (i : Nat),
      (splitLoop p s l i).1.length + (splitLoop p s l i).2.length = l.length
  | [], _ => rfl
  | kv :: rest, i => by
    have ih := splitLoop_length p s rest (i + 1)
    unfold splitLoop
    by_cases h : p kv.2 kv.1 i s = true
    · rw [if_pos h]
      simp only [List.length_cons]
      omega
    · rw [if_neg h]
      simp only [List.length_cons]
      omega

namespace Store

variable {K V : Type}

/-- `Store.prototype.filter` (the loop after the callable check). -/
def filter (c : Store K V) (p : V → K → Nat → Store K V → Bool) : Store K V :=
  ⟨filterLoop p c c.entries 0,
   ((filterLoop_sublist p c c.entries 0).map Prod.fst).nodup c.nodup⟩

/-- `Store.prototype.split` (the loop after the callable check). -/
def split (c : Store K V) (p : V → K → Nat → Store K V → Bool) :
    Store K V × Store K V :=
  (⟨(splitLoop p c c.entries 0).1,
    ((splitLoop_fst_sublist p c c.entries 0).map Prod.fst).nodup c.nodup⟩,
   ⟨(splitLoop p c c.entries 0).2,
    ((splitLoop_snd_sublist p c c.entries 0).map Prod.fst).nodup c.nodup⟩)

/-- `Store.prototype.map` (the loop after the callable check):
returns a plain array. -/
def map {T : Type} (c : Store K V) (f : V → K → Nat → Store K V → T) :
    List T :=
  mapLoop f c c.entries 0

/-- JS indexing `arr[i]` for a possibly negative index: `undefined`
out of range. -/
def jsIdx {α : Type} (l : List α) (i : Int) : Option α :=
  if i < 0 then none else l[i.toNat]?

/-- `Store.prototype.first`: `this.array()[0]`. -/
def first (c : Store K V) : Option V := jsIdx c.array 0

/-- `Store.prototype.firstKey`: `this.keyArray()[0]`. -/
def firstKey (c : Store K V) : Option K := jsIdx c.keyArray 0

/-- `Store.prototype.last`: `this.array()[this.size - 1]`. -/
def last (c : Store K V) : Option V := jsIdx c.array ((c.size : Int) - 1)

/-- `Store.prototype.lastKey`: `this.keyArray()[this.size - 1]`. -/
def lastKey (c : Store K V) : Option K := jsIdx c.keyArray ((c.size : Int) - 1)

/-- `Store.prototype.random`: `values[Math.floor(Math.random() *
values.length)]`, with the random draw made explicit as the index
`i`; on a non-empty store the draw lands in `[0, size)`, on an empty
store the computed index is `0` and the lookup is `undefined`
(`none` here for every `i`). -/
def random (c : Store K V) (i : Nat) : Option V := c.array[i]?

/-- `Store.prototype.randomKey`, same convention as `random`. -/
def randomKey (c : Store K V) (i : Nat) : Option K := c.keyArray[i]?

/-- `Store.prototype.randomPair`: `[key, this.get(key)]` with
`key = this.randomKey()`; on an empty store both components are
`undefined`. -/
def randomPair [DecidableEq K] (c : Store K V) (i : Nat) :
    Option K × Option V :=
  let key := c.randomKey i
  (key, key.bind (fun k => c.get k))

end Store

/-- JS `Array.prototype.indexOf(x, from)`: scans positions `from`,
`from + 1`, ... and returns the first position holding `x`, else
`-1`. -/
def jsIndexOfFrom {α : Type} [DecidableEq α] (l : List α) (x : α) (i : Nat) :
    Int :=
  if h : i < l.length then
    if l[i] = x then (i : Int) else jsIndexOfFrom l x (i + 1)
  else -1
termination_by l.length - i

/-- JS `Array.prototype.lastIndexOf(x, from)`: scans positions
`from`, `from - 1`, ..., `0` and returns the first position holding
`x`, else `-1`. -/
def jsLastIndexOfFrom {α : Type} [DecidableEq α] (l : List α) (x : α)
    (i : Nat) : Int :=
  if l[i]? = some x then (i : Int)
  else if _h : i = 0 then -1
  else jsLastIndexOfFrom l x (i - 1)
termination_by i
decreasing_by omega

namespace Store

variable {K V : Type}

/-- `Store.prototype.indexOf`: `-1` on an empty store, else
`this.keyArray().indexOf(key, fromIndex)` (default `fromIndex = 0`). -/
def indexOf [DecidableEq K] (c : Store K V) (k : K) (fromIndex : Nat) : Int :=
  if c.size = 0 then -1 else jsIndexOfFrom c.keyArray k fromIndex

/-- `Store.prototype.lastIndexOf`: `-1` on an empty store, else
`this.keyArray().lastIndexOf(key, fromIndex)` (default
`fromIndex = this.size - 1`). -/
def lastIndexOf [DecidableEq K] (c : Store K V) (k : K) (fromIndex : Nat) :
    Int :=
  if c.size = 0 then -1 else jsLastIndexOfFrom c.keyArray k fromIndex

end Store

/-- A JS value that is either a primitive or an array, which is all
`flat`/`flatMap` inspect (`Array.isArray`). -/
inductive JVal (α : Type) : Type
  | prim (a : α) : JVal α
  | arr (elems : List (JVal α)) : JVal α

/-- `Array.isArray`. -/
def JVal.isArr {α : Type} : JVal α → Bool
  | .prim _ => false
  | .arr _ => true

/-- JS `Array.prototype.flat(depth)`: concatenates nested arrays up
to `depth` levels. -/
def jflat {α : Type} : Nat → List (JVal α) → List (JVal α)
  | 0, l => l
  | d + 1, l =>
    l.foldr
      (fun v acc =>
        match v with
        | .arr inner => jflat d inner ++ acc
        | x => x :: acc)
      []

/-- JS `Array.prototype.flatMap(cb)`: map, then concatenate one
level of resulting arrays. -/
def jsFlatMap {α : Type} (f : JVal α → JVal α) (l : List (JVal α)) :
    List (JVal α) :=
  l.foldr
    (fun v acc =>
      match f v with
      | .arr inner => inner ++ acc
      | x => x :: acc)
    []

/-- The errors the `Store` methods throw. -/
inductive JSError : Type
  | typeError : JSError
  | rangeError : JSError
deriving DecidableEq

/-- A JS argument expected to be a function: either an actual
function or a non-callable value (on which `typeof arg !==
'function'`). -/
inductive JSArg (F : Type) : Type
  | callable (f : F) : JSArg F
  | notCallable : JSArg F

namespace Store

variable {K V : Type} {α : Type}

/-- `Store.prototype.filter` including its callable check:
`if (typeof callback !== 'function') throw new TypeError(...)`. -/
def filterChecked (c : Store K V)
    (cb : JSArg (V → K → Nat → Store K V → Bool)) :
    Except JSError (Store K V) :=
  match cb with
  | .callable f => .ok (c.filter f)
  | .notCallable => .error .typeError

/-- `Store.prototype.map` including its callable check. -/
def mapChecked {T : Type} (c : Store K V)
    (cb : JSArg (V → K → Nat → Store K V → T)) :
    Except JSError (List T) :=
  match cb with
  | .callable f => .ok (c.map f)
  | .notCallable => .error .typeError

/-- `Store.prototype.split` including its callable check. -/
def splitChecked (c : Store K V)
    (cb : JSArg (V → K → Nat → Store K V → Bool)) :
    Except JSError (Store K V × Store K V) :=
  match cb with
  | .callable f => .ok (c.split f)
  | .notCallable => .error .typeError

theorem flatKeys {K' : Type} (entries : List (K' × JVal α)) (d : Nat) :
    ((entries.map
        (fun kv =>
          (kv.1,
            match kv.2 with
            | JVal.arr l => JVal.arr (jflat d l)
            | v => v))).map Prod.fst) = entries.map Prod.fst := by
  rw [List.map_map]
  rfl

/-- `Store.prototype.flat(strength)`: throws a `RangeError` when
`strength < 1`; returns the clone unchanged when no value is an
array; otherwise maps each array value through `Array.prototype.flat
(strength)` and writes the results back over the same keys, which
keeps keys and order (the `mapped`-then-`set` loop of the source
only overwrites existing keys). -/
def flat [DecidableEq K] (c : Store K (JVal α)) (strength : Int) :
    Except JSError (Store K (JVal α)) :=
  if strength < 1 then .error .rangeError
  else if !(c.array.any JVal.isArr) then .ok c.clone
  else
    .ok
      ⟨c.entries.map
          (fun kv =>
            (kv.1,
              match kv.2 with
              | JVal.arr l => JVal.arr (jflat strength.toNat l)
              | v => v)),
        by rw [flatKeys]; exact c.nodup⟩

theorem flatMapKeys {K' : Type} (entries : List (K' × JVal α))
    (f : JVal α → JVal α) :
    ((entries.map
        (fun kv =>
          (kv.1,
            match kv.2 with
            | JVal.arr l => JVal.arr (jsFlatMap f l)
            | v => v))).map Prod.fst) = entries.map Prod.fst := by
  rw [List.map_map]
  rfl

/-- `Store.prototype.flatMap(callback)`: throws a `TypeError` when
the callback is not callable; returns the clone when no value is an
array; otherwise maps each array value through
`Array.prototype.flatMap(callback)` and writes the results back over
the same keys. -/
def flatMap [DecidableEq K] (c : Store K (JVal α))
    (cb : JSArg (JVal α → JVal α)) : Except JSError (Store K (JVal α)) :=
  match cb with
  | .notCallable => .error .typeError
  | .callable f =>
    if !(c.array.any JVal.isArr) then .ok c.clone
    else
      .ok
        ⟨c.entries.map
            (fun kv =>
              (kv.1,
                match kv.2 with
                | JVal.arr l => JVal.arr (jsFlatMap f l)
                | v => v)),
          by rw [flatMapKeys]; exact c.nodup⟩

end Store

/-! A small heap model: each `Store` object lives at a reference (an
index into the heap), so that aliasing facts — `clone` allocating a
fresh independent object, the derive methods never writing through
`this` — are expressible.  Reading an unallocated reference yields
the empty pair list.  -/

/-- The heap: pair lists addressed by reference. -/
abbrev Heap (K V : Type) : Type := List (List (K × V))

/-- Read the entries of the store object at reference `r`. -/
def hRead {K V : Type} (h : Heap K V) (r : Nat) : List (K × V) :=
  (h[r]?).getD []

/-- Overwrite the entries of the store object at reference `r`. -/
def hWrite {K V : Type} (h : Heap K V) (r : Nat) (l : List (K × V)) :
    Heap K V :=
  h.set r l

/-- Allocate a fresh store object (`new Store(...)`), returning the
heap and the new reference. -/
def hAlloc {K V : Type} (h : Heap K V) (l : List (K × V)) : Heap K V × Nat :=
  (h ++ [l], h.length)

/-- `store.set(k, v)` through a reference. -/
def hSet {K V : Type} [DecidableEq K] (h : Heap K V) (r : Nat) (k : K)
    (v : V) : Heap K V :=
  hWrite h r (setPair (hRead h r) k v)

/-- `store.delete(k)` through a reference. -/
def hDelete {K V : Type} [DecidableEq K] (h : Heap K V) (r : Nat) (k : K) :
    Heap K V :=
  hWrite h r (deletePair (hRead h r) k)

/-- `this.clone()` through a reference: `new Store(this)` copies the
entries of `this` into a freshly allocated object. -/
def hClone {K V : Type} (h : Heap K V) (r : Nat) : Heap K V × Nat :=
  hAlloc h (hRead h r)

/-- `this.filter(p)` through a reference: allocate the result store,
then loop over the entries of `this` with a running index, setting
each truthy pair into the result. -/
def hFilter {K V : Type} [DecidableEq K] (h : Heap K V) (r : Nat)
    (p : V → K → Nat → List (K × V) → Bool) : Heap K V × Nat :=
  let alloc := hAlloc h []
  let src := hRead alloc.1 r
  let res :=
    src.foldl
      (fun (acc : Heap K V × Nat) kv =>
        (if p kv.2 kv.1 acc.2 src then hSet acc.1 alloc.2 kv.1 kv.2
         else acc.1,
         acc.2 + 1))
      (alloc.1, 0)
  (res.1, alloc.2)

/-- `this.split(p)` through a reference: allocate the two result
stores, then loop over the entries of `this`, setting each pair into
one of them. -/
def hSplit {K V : Type} [DecidableEq K] (h : Heap K V) (r : Nat)
    (p : V → K → Nat → List (K × V) → Bool) : Heap K V × Nat × Nat :=
  let alloc1 := hAlloc h []
  let alloc2 := hAlloc alloc1.1 []
  let src := hRead alloc2.1 r
  let res :=
    src.foldl
      (fun (acc : Heap K V × Nat) kv =>
        (if p kv.2 kv.1 acc.2 src then hSet acc.1 alloc1.2 kv.1 kv.2
         else hSet acc.1 alloc2.2 kv.1 kv.2,
         acc.2 + 1))
      (alloc2.1, 0)
  (res.1, alloc1.2, alloc2.2)

/-- The heap-level map loop: push `callback(value, key, index,
this)` for every pair of the snapshot. -/
def hMapLoop {K V T : Type} (f : V → K → Nat → List (K × V) → T)
    (src : List (K × V)) : List (K × V) → Nat → List T
  | [], _ => []
  | kv :: rest, i => f kv.2 kv.1 i src :: hMapLoop f src rest (i + 1)

/-- `this.map(f)` through a reference: builds a plain array, never
allocating a store nor writing the heap. -/
def hMap {K V T : Type} (h : Heap K V) (r : Nat)
    (f : V → K → Nat → List (K × V) → T) : Heap K V × List T :=
  (h, hMapLoop f (hRead h r) (hRead h r) 0)

theorem hRead_hWrite_ne {K V : Type} (h : Heap K V) {r r' : Nat}
    (hne : r' ≠ r) (l : List (K × V)) : hRead (hWrite h r' l) r = hRead h r := by
  unfold hRead hWrite
  rw [List.getElem?_set_ne hne]

theorem hRead_hSet_ne {K V : Type} [DecidableEq K] (h : Heap K V)
    {r r' : Nat} (hne : r' ≠ r) (k : K) (v : V) :
    hRead (hSet h r' k v) r = hRead h r :=
  hRead_hWrite_ne h hne _

theorem hRead_append {K V : Type} (h : Heap K V) {r : Nat}
    (hr : r < h.length) (t : Heap K V) : hRead (h ++ t) r = hRead h r := by
  unfold hRead
  rw [List.getElem?_append_left hr]

/-- A fold whose step never changes what reference `r` holds leaves
`r` unchanged. -/
theorem hRead_foldl_of_step {K V : Type} {β : Type} (r : Nat)
    (step : (Heap K V × Nat) → β → Heap K V × Nat)
    (hstep : ∀ s b, hRead (step s b).1 r = hRead s.1 r) :
    ∀ (l : List β) (s : Heap K V × Nat),
      hRead (l.foldl step s).1 r = hRead s.1 r
  | [], _ => rfl
  | b :: rest, s => by
    rw [List.foldl_cons]
    rw [hRead_foldl_of_step r step hstep rest (step s b)]
    exact hstep s b

/-- The forward scan finds the unique position of a present element
when it starts at or before it. -/
theorem jsIndexOfFrom_found {α : Type} [DecidableEq α] (l : List α) (x : α)
    (hn : l.Nodup) (j i : Nat) (hj : l[j]? = some x) (hij : i ≤ j) :
    jsIndexOfFrom l x i = (j : Int) := by
  have hjlen : j < l.length := (List.getElem?_eq_some_iff.1 hj).1
  have hilen : i < l.length := Nat.lt_of_le_of_lt hij hjlen
  rw [jsIndexOfFrom]
  rw [dif_pos hilen]
  by_cases hx : l[i] = x
  · have hxq : l[i]? = some x := List.getElem?_eq_some_iff.2 ⟨hilen, hx⟩
    have hij' : i = j := List.getElem?_inj hilen hn (hxq.trans hj.symm)
    rw [if_pos hx, hij']
  · rw [if_neg hx]
    have hne : i ≠ j := by
      intro he
      subst he
      exact hx (List.getElem?_eq_some_iff.1 hj).2
    exact jsIndexOfFrom_found l x hn j (i + 1) hj (by omega)
termination_by j - i
decreasing_by omega

/-- The forward scan misses an absent element. -/
theorem jsIndexOfFrom_not_found {α : Type} [DecidableEq α] (l : List α)
    (x : α) (hx : x ∉ l) (i : Nat) : jsIndexOfFrom l x i = -1 := by
  rw [jsIndexOfFrom]
  by_cases hilen : i < l.length
  · rw [dif_pos hilen]
    have hne : ¬(l[i] = x) := fun he => hx (he ▸ List.getElem_mem hilen)
    rw [if_neg hne]
    exact jsIndexOfFrom_not_found l x hx (i + 1)
  · rw [dif_neg hilen]
termination_by l.length - i
decreasing_by omega

/-- The backward scan finds the unique position of a present element
when it starts at or after it. -/
theorem jsLastIndexOfFrom_found {α : Type} [DecidableEq α] (l : List α)
    (x : α) (hn : l.Nodup) (j i : Nat) (hj : l[j]? = some x) (hji : j ≤ i) :
    jsLastIndexOfFrom l x i = (j : Int) := by
  rw [jsLastIndexOfFrom]
  by_cases hx : l[i]? = some x
  · have hilen : i < l.length := (List.getElem?_eq_some_iff.1 hx).1
    have hij : i = j := List.getElem?_inj hilen hn (hx.trans hj.symm)
    rw [if_pos hx, hij]
  · rw [if_neg hx]
    have hne : i ≠ j := fun he => hx (he ▸ hj)
    have hi0 : ¬(i = 0) := by omega
    rw [dif_neg hi0]
    exact jsLastIndexOfFrom_found l x hn j (i - 1) hj (by omega)
termination_by i
decreasing_by omega

/-- The backward scan misses an absent element. -/
theorem jsLastIndexOfFrom_not_found {α : Type} [DecidableEq α] (l : List α)
    (x : α) (hx : x ∉ l) (i : Nat) : jsLastIndexOfFrom l x i = -1 := by
  rw [jsLastIndexOfFrom]
  have hxi : ¬(l[i]? = some x) := fun he =>
    hx (List.mem_iff_getElem?.2 ⟨i, he⟩)
  rw [if_neg hxi]
  by_cases hi0 : i = 0
  · rw [dif_pos hi0]
  · rw [dif_neg hi0]
    exact jsLastIndexOfFrom_not_found l x hx (i - 1)
termination_by i
decreasing_by omega

/-! Concrete fixtures used by the witnesses. -/

/-- The store `A = [("x", 1)]` of the spec's `concat` scenario. -/
def exA : Store String Nat := ⟨[("x", 1)], by decide⟩

/-- The store `B = [("y", 2), ("z", 3)]` of the spec's `concat`
scenario. -/
def exB : Store String Nat := ⟨[("y", 2), ("z", 3)], by decide⟩

/-- The store `[("a", 1), ("b", 2), ("c", 3)]` of the spec's
testable-properties section. -/
def exC : Store String Nat := ⟨[("a", 1), ("b", 2), ("c", 3)], by decide⟩

/-- An empty store. -/
def exEmpty : Store String Nat := ⟨[], by decide⟩

/-- The predicate `v => v > 1` of the spec's examples. -/
def exP : Nat → String → Nat → Store String Nat → Bool :=
  fun v _ _ _ => decide (1 < v)

/-- A one-object heap holding the store `[("x", 1)]`. -/
def exHeap : Heap String Nat := [[("x", 1)]]

/-- A store of JS values with no array among them. -/
def exJ : Store String (JVal Nat) :=
  ⟨[("a", JVal.prim 1), ("b", JVal.prim 2)], by decide⟩

/-! The claims. -/

/-- C1: for every store `A` and non-empty argument store `B`,
`A.concat(B)` is a clone of `A` with only B's first pair set into
it, and any later pair of `B` occurs in the result only if it was
already a pair of `A`. -/
theorem concat_takes_only_first_pair {K V : Type} [DecidableEq K]
    (A B : Store K V) (k : K) (v : V) (hB : B.entries.head? = some (k, v)) :
    A.concat [B] = some (A.set k v) ∧
    ∀ p ∈ B.entries.tail, p ∈ (A.set k v).entries → p ∈ A.entries := by
  constructor
  · simp [Store.concat, hB, Store.clone_eq]
  · intro p hp hpr
    obtain ⟨t, ht⟩ : ∃ t, B.entries = (k, v) :: t := by
      cases hBe : B.entries with
      | nil => rw [hBe] at hB; cases hB
      | cons a t =>
        rw [hBe] at hB
        simp only [List.head?_cons, Option.some.injEq] at hB
        exact ⟨t, by rw [hB]⟩
    have hk : k ∉ t.map Prod.fst := by
      have := B.nodup
      rw [ht] at this
      simp only [List.map_cons, List.nodup_cons] at this
      exact this.1
    have hpk : p.1 ≠ k := by
      intro he
      apply hk
      rw [ht] at hp
      simp only [List.tail_cons] at hp
      exact he ▸ List.mem_map.2 ⟨p, hp, rfl⟩
    exact mem_setPair_of_ne hpr hpk

/-- C1 witness: the spec's scenario `A = [("x",1)]`,
`B = [("y",2), ("z",3)]`; the result is exactly
`[("x",1), ("y",2)]` and the dropped pair `("z",3)` is not in it. -/
theorem concat_takes_only_first_pair_witness :
    (exA.concat [exB]).map Store.entries = some [("x", 1), ("y", 2)] ∧
    (("z", 3) ∈ (exA.set "y" 2).entries → ("z", 3) ∈ exA.entries) := by
  refine ⟨?_, fun h => (concat_takes_only_first_pair exA exB "y" 2 rfl).2
    ("z", 3) (by decide) h⟩
  rw [(concat_takes_only_first_pair exA exB "y" 2 rfl).1]
  decide

/-- C2: for every store and predicate, the filtered store and the
second component of the split partition the store by size, and every
pair of the filtered store is a pair of the first split component. -/
theorem filter_split_sizes {K V : Type} (c : Store K V)
    (p : V → K → Nat → Store K V → Bool) :
    (c.filter p).size + (c.split p).2.size = c.size ∧
    ∀ kv ∈ (c.filter p).entries, kv ∈ (c.split p).1.entries := by
  constructor
  · have h1 := splitLoop_length p c c.entries 0
    have h2 := splitLoop_fst_eq_filterLoop p c c.entries 0
    simp only [Store.filter, Store.split, Store.size]
    rw [← h2]
    exact h1
  · intro kv hkv
    simp only [Store.filter, Store.split] at *
    rw [splitLoop_fst_eq_filterLoop]
    exact hkv

/-- C2 witness: the spec's example store and predicate `v > 1`;
`("b", 2)` passes the filter and indeed lands in the first split
component. -/
theorem filter_split_sizes_witness :
    (exC.filter exP).size + (exC.split exP).2.size = exC.size ∧
    ("b", 2) ∈ (exC.split exP).1.entries :=
  ⟨(filter_split_sizes exC exP).1,
   (filter_split_sizes exC exP).2 ("b", 2) (by decide)⟩

/-- C9: the filtered store and the first component of the split are
the same store: same pairs, same order. -/
theorem split_fst_eq_filter {K V : Type} (c : Store K V)
    (p : V → K → Nat → Store K V → Bool) :
    (c.split p).1 = c.filter p := by
  apply Store.ext
  exact splitLoop_fst_eq_filterLoop p c c.entries 0

/-- C3: `clone` allocates a fresh object whose entries (hence size
and iteration order) equal the source's, and `set`/`delete` on the
clone never change the source's contents. -/
theorem clone_independent {K V : Type} [DecidableEq K] (h : Heap K V)
    (r : Nat) (hr : r < h.length) :
    (hClone h r).2 ≠ r ∧
    hRead (hClone h r).1 (hClone h r).2 = hRead h r ∧
    (hRead (hClone h r).1 (hClone h r).2).length = (hRead h r).length ∧
    (∀ k v, hRead (hSet (hClone h r).1 (hClone h r).2 k v) r = hRead h r) ∧
    (∀ k, hRead (hDelete (hClone h r).1 (hClone h r).2 k) r = hRead h r) := by
  have hne : (hClone h r).2 ≠ r := by
    simp only [hClone, hAlloc]
    omega
  have hsame : hRead (hClone h r).1 (hClone h r).2 = hRead h r := by
    simp only [hClone, hAlloc, hRead]
    rw [List.getElem?_concat_length]
    rfl
  have hold : hRead (hClone h r).1 r = hRead h r := by
    simp only [hClone, hAlloc]
    exact hRead_append h hr _
  refine ⟨hne, hsame, by rw [hsame], ?_, ?_⟩
  · intro k v
    rw [hSet, hRead_hWrite_ne _ hne]
    exact hold
  · intro k
    rw [hDelete, hRead_hWrite_ne _ hne]
    exact hold

/-- C3 witness: a one-store heap; the clone has the same entries and
mutating it leaves the source untouched. -/
theorem clone_independent_witness :
    (hClone exHeap 0).2 ≠ 0 ∧
    hRead (hClone exHeap 0).1 (hClone exHeap 0).2 = hRead exHeap 0 ∧
    hRead (hSet (hClone exHeap 0).1 (hClone exHeap 0).2 "q" 9) 0 =
      hRead exHeap 0 ∧
    hRead (hDelete (hClone exHeap 0).1 (hClone exHeap 0).2 "x") 0 =
      hRead exHeap 0 := by
  have h := clone_independent exHeap 0 (by decide)
  exact ⟨h.1, h.2.1, h.2.2.2.1 "q" 9, h.2.2.2.2 "x"⟩

/-- C8: the derive operations `filter`, `split` and `map` never
write through `this`: the receiver holds the same entry list (same
size, same pairs, same order) afterwards, and `map` does not touch
the heap at all. -/
theorem derive_ops_frame {K V T : Type} [DecidableEq K] (h : Heap K V)
    (r : Nat) (hr : r < h.length)
    (p : V → K → Nat → List (K × V) → Bool)
    (f : V → K → Nat → List (K × V) → T) :
    hRead (hFilter h r p).1 r = hRead h r ∧
    hRead (hSplit h r p).1 r = hRead h r ∧
    (hMap h r f).1 = h := by
  have hne1 : h.length ≠ r := by omega
  have hne2 : (h ++ [[]] : Heap K V).length ≠ r := by
    simp only [List.length_append, List.length_cons, List.length_nil]
    omega
  refine ⟨?_, ?_, rfl⟩
  · simp only [hFilter, hAlloc]
    rw [hRead_foldl_of_step r]
    · exact hRead_append h hr [[]]
    · intro s b
      by_cases hb : p b.2 b.1 s.2 (hRead (h ++ [[]]) r) = true
      · rw [if_pos hb]
        exact hRead_hSet_ne s.1 hne1 b.1 b.2
      · rw [if_neg hb]
  · simp only [hSplit, hAlloc]
    rw [hRead_foldl_of_step r]
    · rw [List.append_assoc]
      exact hRead_append h hr ([[]] ++ [[]])
    · intro s b
      by_cases hb : p b.2 b.1 s.2 (hRead (h ++ [[]] ++ [[]]) r) = true
      · rw [if_pos hb]
        exact hRead_hSet_ne s.1 hne1 b.1 b.2
      · rw [if_neg hb]
        exact hRead_hSet_ne s.1 hne2 b.1 b.2

/-- C8 witness: on the one-store heap, filtering, splitting and
mapping leave the store at reference 0 as it was. -/
theorem derive_ops_frame_witness :
    hRead (hFilter exHeap 0 (fun v _ _ _ => decide (0 < v))).1 0 =
      hRead exHeap 0 ∧
    hRead (hSplit exHeap 0 (fun v _ _ _ => decide (0 < v))).1 0 =
      hRead exHeap 0 ∧
    (hMap exHeap 0 (fun v _ _ _ => v + 1)).1 = exHeap := by
  have h := derive_ops_frame exHeap 0 (by decide)
    (fun v _ _ _ => decide (0 < v)) (fun v _ _ _ => v + 1)
  exact ⟨h.1, h.2.1, h.2.2⟩

/-- C4: for every draw of an index in `[0, size)`, `random`,
`randomKey` and `randomPair` return a value, key and pair present in
a non-empty store; on an empty store all three return the
`undefined` sentinel. -/
theorem random_in_store {K V : Type} [DecidableEq K] (c : Store K V) :
    (∀ i, i < c.size →
      (∃ v, c.random i = some v ∧ v ∈ c.array) ∧
      (∃ k, c.randomKey i = some k ∧ k ∈ c.keyArray) ∧
      (∃ k v, c.randomPair i = (some k, some v) ∧ (k, v) ∈ c.entries)) ∧
    (c.size = 0 → ∀ i, c.random i = none ∧ c.randomKey i = none ∧
      c.randomPair i = (none, none)) := by
  constructor
  · intro i hi
    have hia : i < c.array.length := by
      simpa [Store.array, Store.size] using hi
    have hik : i < c.keyArray.length := by
      simpa [Store.keyArray, Store.size] using hi
    refine ⟨⟨c.array[i], by simp [Store.random], List.getElem_mem hia⟩,
      ⟨c.keyArray[i], by simp [Store.randomKey], List.getElem_mem hik⟩, ?_⟩
    have hk : c.keyArray[i] ∈ c.entries.map Prod.fst :=
      List.getElem_mem hik
    rcases List.mem_map.1 hk with ⟨q, hq, hqk⟩
    have hfind : c.entries.find? (fun p => decide (p.1 = c.keyArray[i])) ≠
        none := by
      intro hnone
      have hall := List.find?_eq_none.1 hnone q hq
      simp [hqk] at hall
    rcases Option.ne_none_iff_exists'.1 hfind with ⟨q', hq'⟩
    have hq'mem : q' ∈ c.entries := List.mem_of_find?_eq_some hq'
    have hq'k : q'.1 = c.keyArray[i] := by
      have := List.find?_some hq'
      simpa using this
    refine ⟨c.keyArray[i], q'.2, ?_, ?_⟩
    · have hkey : c.keyArray[i]? = some c.keyArray[i] :=
        List.getElem?_eq_some_iff.2 ⟨hik, rfl⟩
      simp only [Store.randomPair, Store.randomKey, Store.get]
      rw [hkey]
      simp [Option.bind, hq']
    · rw [← hq'k]
      exact hq'mem
  · intro hz i
    have hnil : c.entries = [] := List.eq_nil_of_length_eq_zero hz
    simp [Store.random, Store.randomKey, Store.randomPair, Store.array,
      Store.keyArray, hnil]

/-- C4 witness: a draw of index 0 on the three-pair example store
yields a present value, key and pair; the empty store yields the
sentinels. -/
theorem random_in_store_witness :
    ((∃ v, exC.random 0 = some v ∧ v ∈ exC.array) ∧
      (∃ k, exC.randomKey 0 = some k ∧ k ∈ exC.keyArray) ∧
      (∃ k v, exC.randomPair 0 = (some k, some v) ∧ (k, v) ∈ exC.entries)) ∧
    (exEmpty.random 0 = none ∧ exEmpty.randomKey 0 = none ∧
      exEmpty.randomPair 0 = (none, none)) :=
  ⟨(random_in_store exC).1 0 (by decide),
   (random_in_store exEmpty).2 (by decide) 0⟩

/-- C5: with the default start indices, `indexOf` and `lastIndexOf`
agree on the position of a present key, and both return `-1` for an
absent key and on an empty store. -/
theorem indexOf_lastIndexOf_agree {K V : Type} [DecidableEq K]
    (c : Store K V) (k : K) :
    (k ∈ c.keyArray → ∃ j : Nat, c.keyArray[j]? = some k ∧
      c.indexOf k 0 = (j : Int) ∧ c.lastIndexOf k (c.size - 1) = (j : Int)) ∧
    (k ∉ c.keyArray → c.indexOf k 0 = -1 ∧
      c.lastIndexOf k (c.size - 1) = -1) ∧
    (c.size = 0 → c.indexOf k 0 = -1 ∧ c.lastIndexOf k (c.size - 1) = -1) := by
  have hnod : c.keyArray.Nodup := c.nodup
  refine ⟨?_, ?_, ?_⟩
  · intro hk
    rcases List.mem_iff_getElem?.1 hk with ⟨j, hj⟩
    have hjlen : j < c.keyArray.length := (List.getElem?_eq_some_iff.1 hj).1
    have hsz : ¬(c.size = 0) := by
      simp only [Store.keyArray, Store.size] at hjlen ⊢
      rw [List.length_map] at hjlen
      omega
    refine ⟨j, hj, ?_, ?_⟩
    · rw [Store.indexOf, if_neg hsz]
      exact jsIndexOfFrom_found c.keyArray k hnod j 0 hj (Nat.zero_le j)
    · rw [Store.lastIndexOf, if_neg hsz]
      apply jsLastIndexOfFrom_found c.keyArray k hnod j (c.size - 1) hj
      have : c.keyArray.length = c.size := by
        simp [Store.keyArray, Store.size]
      omega
  · intro hk
    by_cases hsz : c.size = 0
    · rw [Store.indexOf, if_pos hsz, Store.lastIndexOf, if_pos hsz]
      exact ⟨rfl, rfl⟩
    · rw [Store.indexOf, if_neg hsz, Store.lastIndexOf, if_neg hsz]
      exact ⟨jsIndexOfFrom_not_found c.keyArray k hk 0,
        jsLastIndexOfFrom_not_found c.keyArray k hk (c.size - 1)⟩
  · intro hsz
    rw [Store.indexOf, if_pos hsz, Store.lastIndexOf, if_pos hsz]
    exact ⟨rfl, rfl⟩

/-- C5 witness: on the example store, `"b"` is found at position 1
by both scans, and the absent key `"q"` gives `-1` from both. -/
theorem indexOf_lastIndexOf_agree_witness :
    (∃ j : Nat, exC.keyArray[j]? = some "b" ∧
      exC.indexOf "b" 0 = (j : Int) ∧
      exC.lastIndexOf "b" (exC.size - 1) = (j : Int)) ∧
    (exC.indexOf "q" 0 = -1 ∧ exC.lastIndexOf "q" (exC.size - 1) = -1) ∧
    (exEmpty.indexOf "b" 0 = -1 ∧
      exEmpty.lastIndexOf "b" (exEmpty.size - 1) = -1) :=
  ⟨(indexOf_lastIndexOf_agree exC "b").1 (by decide),
   (indexOf_lastIndexOf_agree exC "q").2.1 (by decide),
   (indexOf_lastIndexOf_agree exEmpty "b").2.2 (by decide)⟩

/-- C7: on an empty store `first`, `firstKey`, `last` and `lastKey`
return the `undefined` sentinel (no error is raised); on a non-empty
store they return the value/key at position 0 and at position
`size - 1`. -/
theorem first_last_spec {K V : Type} (c : Store K V) :
    (c.size = 0 → c.first = none ∧ c.firstKey = none ∧ c.last = none ∧
      c.lastKey = none) ∧
    (0 < c.size →
      (∃ v, c.first = some v ∧ c.array[0]? = some v) ∧
      (∃ k, c.firstKey = some k ∧ c.keyArray[0]? = some k) ∧
      (∃ v, c.last = some v ∧ c.array[c.size - 1]? = some v) ∧
      (∃ k, c.lastKey = some k ∧ c.keyArray[c.size - 1]? = some k)) := by
  constructor
  · intro hz
    have hnil : c.entries = [] := List.eq_nil_of_length_eq_zero hz
    simp [Store.first, Store.firstKey, Store.last, Store.lastKey,
      Store.jsIdx, Store.array, Store.keyArray, Store.size, hnil]
  · intro hpos
    have hia : 0 < c.array.length := by
      simpa [Store.array, Store.size] using hpos
    have hik : 0 < c.keyArray.length := by
      simpa [Store.keyArray, Store.size] using hpos
    have hla : c.size - 1 < c.array.length := by
      simp only [Store.array, Store.size] at *
      rw [List.length_map]
      omega
    have hlk : c.size - 1 < c.keyArray.length := by
      simp only [Store.keyArray, Store.size] at *
      rw [List.length_map]
      omega
    have htn : ((c.size : Int) - 1).toNat = c.size - 1 := by omega
    have hnn : ¬((c.size : Int) - 1 < 0) := by omega
    refine ⟨⟨c.array[0], ?_, by simp⟩, ⟨c.keyArray[0], ?_, by simp⟩,
      ⟨c.array[c.size - 1], ?_, by simp⟩,
      ⟨c.keyArray[c.size - 1], ?_, by simp⟩⟩
    · simp [Store.first, Store.jsIdx]
    · simp [Store.firstKey, Store.jsIdx]
    · rw [Store.last, Store.jsIdx, if_neg hnn, htn]
      simp
    · rw [Store.lastKey, Store.jsIdx, if_neg hnn, htn]
      simp

/-- C7 witness: the sentinels on the empty store, and positions 0
and `size - 1` on the example store (`first = 1`, `last = 3`). -/
theorem first_last_spec_witness :
    (exEmpty.first = none ∧ exEmpty.firstKey = none ∧
      exEmpty.last = none ∧ exEmpty.lastKey = none) ∧
    (∃ v, exC.first = some v ∧ exC.array[0]? = some v) ∧
    (∃ v, exC.last = some v ∧ exC.array[exC.size - 1]? = some v) :=
  ⟨(first_last_spec exEmpty).1 (by decide),
   ((first_last_spec exC).2 (by decide)).1,
   ((first_last_spec exC).2 (by decide)).2.2.1⟩

/-- C6: `filter`, `map`, `split` and `flatMap` throw a `TypeError`
exactly when the passed callback is not callable (with a callable
callback they return normally), and `flat` throws a `RangeError`
exactly when its depth argument is `< 1`.  All operations here are
pure functions of the receiver, so the receiver is unchanged by a
throwing call by construction (see also the heap-model frame
theorem). -/
theorem invalid_argument_errors {K α T : Type} [DecidableEq K]
    (c : Store K (JVal α)) :
    (c.filterChecked JSArg.notCallable = Except.error JSError.typeError) ∧
    (∀ f, c.filterChecked (JSArg.callable f) = Except.ok (c.filter f)) ∧
    (@Store.mapChecked K (JVal α) T c JSArg.notCallable =
      Except.error JSError.typeError) ∧
    (∀ f, @Store.mapChecked K (JVal α) T c (JSArg.callable f) =
      Except.ok (c.map f)) ∧
    (c.splitChecked JSArg.notCallable = Except.error JSError.typeError) ∧
    (∀ f, c.splitChecked (JSArg.callable f) = Except.ok (c.split f)) ∧
    (c.flatMap JSArg.notCallable = Except.error JSError.typeError) ∧
    (∀ f, ∃ r, c.flatMap (JSArg.callable f) = Except.ok r) ∧
    (∀ s : Int, s < 1 → c.flat s = Except.error JSError.rangeError) ∧
    (∀ s : Int, 1 ≤ s → ∃ r, c.flat s = Except.ok r) := by
  refine ⟨rfl, fun f => rfl, rfl, fun f => rfl, rfl, fun f => rfl, rfl,
    ?_, ?_, ?_⟩
  · intro f
    rw [Store.flatMap]
    by_cases ha : (!(c.array.any JVal.isArr)) = true
    · rw [if_pos ha]
      exact ⟨c.clone, rfl⟩
    · rw [if_neg ha]
      exact ⟨_, rfl⟩
  · intro s hs
    rw [Store.flat, if_pos hs]
  · intro s hs
    rw [Store.flat, if_neg (by omega)]
    by_cases ha : (!(c.array.any JVal.isArr)) = true
    · rw [if_pos ha]
      exact ⟨c.clone, rfl⟩
    · rw [if_neg ha]
      exact ⟨_, rfl⟩

/-- C6 witness: on a concrete store, the non-callable argument
throws a `TypeError`, `flat(-1)` throws a `RangeError`, and
`flat(2)` returns normally. -/
theorem invalid_argument_errors_witness :
    (exJ.filterChecked JSArg.notCallable = Except.error JSError.typeError) ∧
    (exJ.flat (-1) = Except.error JSError.rangeError) ∧
    (∃ r, exJ.flat 2 = Except.ok r) := by
  have h := @invalid_argument_errors String Nat Nat _ exJ
  exact ⟨h.1, h.2.2.2.2.2.2.2.2.1 (-1) (by omega),
    h.2.2.2.2.2.2.2.2.2 2 (by omega)⟩

/-- C10: when no value of the store is an array and the depth
argument is at least 1, `flat` returns a clone equal to the
receiver: same pairs, same order, no pair modified. -/
theorem flat_no_array_values {K α : Type} [DecidableEq K]
    (c : Store K (JVal α)) (strength : Int) (h1 : 1 ≤ strength)
    (h2 : ∀ v ∈ c.array, v.isArr = false) :
    c.flat strength = Except.ok c := by
  rw [Store.flat, if_neg (by omega)]
  have hany : c.array.any JVal.isArr = false := by
    rw [List.any_eq_false]
    intro v hv
    simp [h2 v hv]
  rw [if_pos (by rw [hany]; rfl)]
  rw [Store.clone_eq]

/-- C10 witness: flattening the array-free store at depth 1 returns
it unchanged. -/
theorem flat_no_array_values_witness : exJ.flat 1 = Except.ok exJ :=
  flat_no_array_values exJ 1 (by omega) (by decide)

end BluStore
